import Mathlib

/-!
Shallow embedding of `edk2toolext/invocables/edk2_pr_eval.py`
(class `DiffToPackageResolver` and the fallback branch of `Edk2PrEval.Go`).

External collaborators (the `Edk2Path` object, the filesystem, the DEC/INF
parsers and the `git diff` change-set provider) are out of scope for the
resolver itself; they are modelled as an explicit environment of functions
(`Env`).  A Python exception raised by a collaborator call that the source
catches is modelled as an `Option.none` result.  Python dictionaries are
modelled as insertion-ordered association lists with overwrite-in-place
assignment (`dictInsert`) and first-match lookup (`dictGet`), which matches
CPython dict semantics.  `list(set(xs))` (whose order CPython leaves to the
hash seed, fixed within one process) is modelled as the deterministic
order-preserving de-duplication `dedup`.
-/

namespace Edk2PrEval

/-! ### String primitives mirroring the Python string operations used -/

/-- Python `str.replace("\\", "/")`: single-character replacement is a
character-wise map. -/
def normalizeSep (s : String) : String :=
  ⟨s.data.map (fun c => if c = '\\' then '/' else c)⟩

/-- Python `str.lower()` (ASCII case fold, as used on file extensions). -/
def strToLower (s : String) : String :=
  ⟨s.data.map Char.toLower⟩

/-- Python `str.endswith(sfx)`. -/
def strEndsWith (s sfx : String) : Bool :=
  sfx.data.reverse.isPrefixOf s.data.reverse

/-- Python `str.startswith(pre)`. -/
def strStartsWith (s pre : String) : Bool :=
  pre.data.isPrefixOf s.data

/-- Helper for Python's substring test `needle in hay` over character lists. -/
def listContainsAux (needle : List Char) : List Char → Bool
  | [] => needle.isEmpty
  | c :: rest => needle.isPrefixOf (c :: rest) || listContainsAux needle rest

/-- Python `needle in hay` (substring containment). -/
def strContains (hay needle : String) : Bool :=
  listContainsAux needle.data hay.data

/-- Python `os.path.join(dir, entry)` for a relative `entry` on a
forward-slash filesystem. -/
def pathJoin (d f : String) : String :=
  d ++ "/" ++ f

/-! ### Data model -/

/-- The part of a parsed DEC package manifest the resolver consumes:
`DecParser.IncludePaths`. -/
structure DecData where
  includePaths : List String
deriving DecidableEq

/-- `DiffToPackageResolver.parsed_dec_cache`: per-package parsed manifest or
an explicit "absent" sentinel (`Option.none`), keyed by package name. -/
abbrev Cache := List (String × Option DecData)

/-- The external collaborators of the resolver, as a record of functions.
`Option` results model calls whose exceptions the source catches. -/
structure Env where
  /-- `Edk2Path.GetEdk2RelativePathFromAbsolutePath`; failure is modelled by
  the empty string, which is exactly what the source tests for. -/
  toRelative : String → String
  /-- `os.path.abspath` as applied in Policy 2. -/
  abspath : String → String
  /-- `Edk2Path.GetContainingPackage`; `none` models the raised exception
  when the file lies outside every known package. -/
  containingPackage : String → Option String
  /-- `Edk2Path.GetAbsolutePathOnThisSytemFromEdk2RelativePath`. -/
  toAbsolute : String → String
  /-- `os.listdir`; `none` models a raised exception. -/
  listdir : String → Option (List String)
  /-- `os.path.isfile`. -/
  isfile : String → Bool
  /-- `DecParser` applied to a workspace-relative DEC path, exposing its
  declared include paths. -/
  parseDec : String → DecData
  /-- `_walk_dir_for_filetypes([".inf"], dir)`: all module manifests found
  recursively beneath a directory. -/
  walkInfs : String → List String
  /-- `InfParser(...).PackagesUsed` for a module manifest file. -/
  parseInf : String → List String

/-! ### Python dict as an insertion-ordered association list -/

/-- Replace the value stored at an existing key, keeping its position. -/
def dictOverwrite {β : Type} (k : String) (v : β) : List (String × β) → List (String × β)
  | [] => []
  | (k', v') :: rest =>
      if k' = k then (k, v) :: dictOverwrite k v rest
      else (k', v') :: dictOverwrite k v rest

/-- Python `d[k] = v`: overwrite in place when the key exists, else append. -/
def dictInsert {β : Type} (m : List (String × β)) (k : String) (v : β) :
    List (String × β) :=
  if k ∈ m.map Prod.fst then dictOverwrite k v m
  else m ++ [(k, v)]

/-- Python `d[k]` / `d.get(k)`: first (unique) matching key. -/
def dictGet {β : Type} (m : List (String × β)) (k : String) : Option β :=
  match m with
  | [] => none
  | (k', v) :: rest => if k' = k then some v else dictGet rest k

/-- Python `list(set(xs))`, held to the deterministic insertion order. -/
def dedup (l : List String) : List String :=
  l.foldl (fun acc a => if a ∈ acc then acc else acc ++ [a]) []

/-! ### Reason strings (verbatim from the source) -/

def p0Reason (rc : Int) : String := "Policy 0 - Failed to diff (" ++ toString rc ++ ")"

def p1Reason : String := "Policy 1 - Platform Function - Filter Packages"

def p2Reason : String := "Policy 2 - Build any package that has changed"

def p3Reason (a : String) : String := "Policy 3 - Package depends on " ++ a

/-! ### `_parse_dec_for_package` and `_is_public_file` -/

/-- The `for entry in allEntries` loop of `_parse_dec_for_package`: the
accumulator is overwritten by every entry whose lower-cased name ends in
`.dec`, so the last match wins. -/
def decFindAux (pkgdir : String) (acc : Option String) : List String → Option String
  | [] => acc
  | e :: rest =>
      decFindAux pkgdir
        (if strEndsWith (strToLower e) ".dec" then some (pathJoin pkgdir e) else acc) rest

/-- `DiffToPackageResolver._parse_dec_for_package`. -/
def parse_dec_for_package (env : Env) (path_to_package : String) : Option DecData :=
  match env.listdir path_to_package with
  | none => none
  | some allEntries =>
    match decFindAux path_to_package none allEntries with
    | none => none
    | some path =>
      let wsr_dec_path := env.toRelative path
      if wsr_dec_path = "" ∨ env.isfile path = false then none
      else some (env.parseDec wsr_dec_path)

/-- The cache discipline of `_is_public_file`: consult
`parsed_dec_cache` first, else parse and populate the cache (a `none`
parse result is cached too). -/
def getDecCached (env : Env) (cache : Cache) (pkg : String) : Option DecData × Cache :=
  match dictGet cache pkg with
  | some d => (d, cache)
  | none =>
    let d := parse_dec_for_package env (env.toAbsolute pkg)
    (d, dictInsert cache pkg d)

/-- `DiffToPackageResolver._is_public_file`; returns the classification and
the updated cache. -/
def is_public_file (env : Env) (cache : Cache) (filepath : String) : Bool × Cache :=
  match env.containingPackage filepath with
  | none => (false, cache)
  | some pkg =>
    match getDecCached env cache pkg with
    | (none, cache') => (false, cache')
    | (some dec, cache') =>
      let fp := normalizeSep filepath
      if dec.includePaths.any (fun includepath =>
          strContains fp (pkg ++ "/" ++ includepath ++ "/")) then (true, cache')
      else if strEndsWith (strToLower filepath) ".dec" then (true, cache')
      else (false, cache')

/-! ### `_does_pkg_depend_on_package` -/

/-- The `for p in ip.PackagesUsed` loop: first dependency whose identifier
starts with the support package wins. -/
def anyDepStarts (support_package : String) : List String → Bool
  | [] => false
  | p :: rest =>
      if strStartsWith p support_package then true else anyDepStarts support_package rest

/-- The `for f in inf_files` loop with early `return True`. -/
def scanInfFiles (env : Env) (support_package : String) : List String → Bool
  | [] => false
  | f :: rest =>
      if anyDepStarts support_package (env.parseInf f) then true
      else scanInfFiles env support_package rest

/-- `DiffToPackageResolver._does_pkg_depend_on_package`. -/
def does_pkg_depend_on_package (env : Env) (package_to_eval support_package : String) : Bool :=
  scanInfFiles env support_package (env.walkInfs (env.toAbsolute package_to_eval))

/-! ### `get_packages_to_build`: the three policies -/

/-- Policy 1 loop: every package returned by the platform function must still
be in the remaining set, else a `ValueError` is raised (modelled as
`Except.error`). -/
def policy1 (after : List String) (remaining : List String)
    (ptb : List (String × String)) :
    Except String (List (String × String) × List String) :=
  match after with
  | [] => .ok (ptb, remaining)
  | a :: rest =>
    if a ∈ remaining then
      policy1 rest (remaining.erase a) (dictInsert ptb a p1Reason)
    else
      .error ("Platform Function FilterPackagesToTest returned package not allowed " ++ a)

/-- Policy 2 loop: build any package containing a changed file; containment
failures are skipped. -/
def policy2 (env : Env) : List String → List String → List (String × String) →
    List (String × String) × List String
  | [], remaining, ptb => (ptb, remaining)
  | f :: rest, remaining, ptb =>
    match env.containingPackage (env.abspath f) with
    | none => policy2 env rest remaining ptb
    | some pkg =>
      if pkg ∉ ptb.map Prod.fst ∧ pkg ∈ remaining then
        policy2 env rest (remaining.erase pkg) (dictInsert ptb pkg p2Reason)
      else policy2 env rest remaining ptb

/-- The Policy 3 file scan: collect the containing package of every changed
file that is public, threading the manifest cache. -/
def publicScan (env : Env) : List String → Cache → List String → List String × Cache
  | [], cache, acc => (acc, cache)
  | f :: rest, cache, acc =>
    match env.containingPackage f with
    | none => publicScan env rest cache acc
    | some pkg =>
      match is_public_file env cache f with
      | (isPub, cache') =>
        if isPub then publicScan env rest cache' (acc ++ [pkg])
        else publicScan env rest cache' acc

/-- Policy 3 inner loop `for p in remaining_packages[:]`: the snapshot is
iterated while removals hit the live list. -/
def policy3Inner (env : Env) (a : String) :
    List String → List String → List (String × String) →
    List (String × String) × List String
  | [], remaining, ptb => (ptb, remaining)
  | p :: rest, remaining, ptb =>
    if does_pkg_depend_on_package env p a then
      policy3Inner env a rest (remaining.erase p) (dictInsert ptb p (p3Reason a))
    else policy3Inner env a rest remaining ptb

/-- Policy 3 outer loop over the de-duplicated public-change set. -/
def policy3 (env : Env) : List String → List String → List (String × String) →
    List (String × String) × List String
  | [], remaining, ptb => (ptb, remaining)
  | a :: rest, remaining, ptb =>
    match policy3Inner env a remaining remaining ptb with
    | (ptb', remaining') => policy3 env rest remaining' ptb'

/-- `DiffToPackageResolver.get_packages_to_build`.  The result pairs the
package-to-reason mapping with the manifest cache as left by Policy 3
(the cache lives on the resolver instance in the source). -/
def get_packages_to_build (env : Env) (cache : Cache) (files : List String)
    (possible_packages : List String)
    (plat_func : List String → List String → List String) :
    Except String (List (String × String) × Cache) :=
  let remaining_packages := possible_packages
  let edk2_relative_files := files.map env.toRelative
  let after := plat_func edk2_relative_files remaining_packages
  match policy1 after remaining_packages [] with
  | .error e => .error e
  | .ok (ptb1, rem1) =>
    match policy2 env files rem1 ptb1 with
    | (ptb2, rem2) =>
      match publicScan env files cache [] with
      | (pubRaw, cache') =>
        let public_package_changes := dedup pubRaw
        match policy3 env public_package_changes rem2 ptb2 with
        | (ptb3, _rem3) => .ok (ptb3, cache')

/-! ### The fallback branch of `Edk2PrEval.Go` -/

/-- The `else` branch of `Go`: annotate every requested package with the
failed diff's return code. -/
def goFallback (requested : List String) (rc : Int) : List (String × String) :=
  requested.foldl (fun d a => dictInsert d a (p0Reason rc)) []

/-- The package-dictionary computation of `Edk2PrEval.Go`: resolve through
the policies when the diff succeeded (`rc = 0`), else fall back to building
everything. -/
def goPackagesDict (env : Env) (cache : Cache) (rc : Int) (files : List String)
    (requested : List String)
    (plat_func : List String → List String → List String) :
    Except String (List (String × String)) :=
  if rc = 0 then
    (get_packages_to_build env cache files requested plat_func).map Prod.fst
  else
    .ok (goFallback requested rc)

/-! ### A small concrete environment for ground-truth evaluation -/

/-- A minimal environment: no package contains any file, every directory
listing fails.  Used to instantiate theorems on concrete inputs. -/
def envA : Env where
  toRelative := fun s => s
  abspath := fun s => s
  containingPackage := fun _ => none
  toAbsolute := fun s => s
  listdir := fun _ => none
  isfile := fun _ => false
  parseDec := fun _ => ⟨[]⟩
  walkInfs := fun _ => []
  parseInf := fun _ => []

/-- Invariant carried through the three policies: result keys are unique,
disjoint from the remaining set, and both live inside the candidate list. -/
def Inv (possible : List String) (ptb : List (String × String)) (rem : List String) : Prop :=
  (ptb.map Prod.fst).Nodup ∧ rem.Nodup ∧
  (∀ k ∈ ptb.map Prod.fst, k ∉ rem) ∧
  (∀ k ∈ ptb.map Prod.fst, k ∈ possible) ∧
  (∀ k ∈ rem, k ∈ possible)

/-- A manifest cache is consistent when every stored entry equals what a
fresh parse of that package's manifest would produce. -/
def Consistent (env : Env) (c : Cache) : Prop :=
  ∀ pkg d, dictGet c pkg = some d → d = parse_dec_for_package env (env.toAbsolute pkg)

/-- Cache-free public-file classification: what `_is_public_file` computes
when every manifest is parsed fresh. -/
def canonPub (env : Env) (filepath : String) : Bool :=
  match env.containingPackage filepath with
  | none => false
  | some pkg =>
    match parse_dec_for_package env (env.toAbsolute pkg) with
    | none => false
    | some dec =>
      (dec.includePaths.any (fun includepath =>
        strContains (normalizeSep filepath) (pkg ++ "/" ++ includepath ++ "/"))) ||
      strEndsWith (strToLower filepath) ".dec"

/-- Cache-free Policy-3 public scan. -/
def canonScan (env : Env) : List String → List String → List String
  | [], acc => acc
  | f :: rest, acc =>
    match env.containingPackage f with
    | none => canonScan env rest acc
    | some pkg =>
      if canonPub env f then canonScan env rest (acc ++ [pkg])
      else canonScan env rest acc

/-- Environment in which every file belongs to package `PkgA`. -/
def envB : Env :=
  { envA with containingPackage := fun _ => some "PkgA" }

/-- Environment with one package directory containing a readme and one DEC
file. -/
def envC : Env :=
  { envA with
    listdir := fun _ => some ["Readme.md", "Pkg.dec"],
    isfile := fun _ => true }

example :
    get_packages_to_build envA [] [] ["PkgA"] (fun _ c => c) =
      .ok ([("PkgA", p1Reason)], []) := rfl

/-! ### Dictionary lemmas -/

theorem keys_overwrite {β : Type} (m : List (String × β)) (k : String) (v : β) :
    (dictOverwrite k v m).map Prod.fst = m.map Prod.fst := by
  induction m with
  | nil => rfl
  | cons p rest ih =>
    obtain ⟨k', v'⟩ := p
    by_cases h : k' = k
    · subst h
      simp [dictOverwrite, ih]
    · simp [dictOverwrite, h, ih]

theorem keys_dictInsert {β : Type} (m : List (String × β)) (k : String) (v : β) :
    (dictInsert m k v).map Prod.fst =
      if k ∈ m.map Prod.fst then m.map Prod.fst else m.map Prod.fst ++ [k] := by
  unfold dictInsert
  split_ifs with h
  · exact keys_overwrite m k v
  · simp

theorem nodup_keys_dictInsert {β : Type} {m : List (String × β)} {k : String} (v : β)
    (h : (m.map Prod.fst).Nodup) : ((dictInsert m k v).map Prod.fst).Nodup := by
  rw [keys_dictInsert]
  split_ifs with hm
  · exact h
  · simp [List.nodup_append, h, hm]

theorem dictGet_eq_none {β : Type} {m : List (String × β)} {k : String}
    (h : k ∉ m.map Prod.fst) : dictGet m k = none := by
  induction m with
  | nil => rfl
  | cons p rest ih =>
    obtain ⟨p1, p2⟩ := p
    simp only [List.map_cons, List.mem_cons] at h
    push_neg at h
    have hne : ¬p1 = k := fun hh => h.1 hh.symm
    simp only [dictGet, if_neg hne]
    exact ih h.2

theorem mem_keys_of_dictGet {β : Type} {m : List (String × β)} {k : String} {v : β}
    (h : dictGet m k = some v) : k ∈ m.map Prod.fst := by
  induction m with
  | nil => simp [dictGet] at h
  | cons p rest ih =>
    obtain ⟨p1, p2⟩ := p
    by_cases hp : p1 = k
    · simp [hp]
    · simp only [dictGet, if_neg hp] at h
      simp [ih h]

theorem dictGet_overwrite_self {β : Type} {m : List (String × β)} {k : String} (v : β)
    (h : k ∈ m.map Prod.fst) :
    dictGet (dictOverwrite k v m) k = some v := by
  induction m with
  | nil => simp at h
  | cons p rest ih =>
    obtain ⟨p1, p2⟩ := p
    by_cases hp : p1 = k
    · subst hp
      simp [dictOverwrite, dictGet]
    · have h' : k ∈ rest.map Prod.fst := by
        simp only [List.map_cons, List.mem_cons] at h
        rcases h with h | h
        · exact absurd h.symm hp
        · exact h
      simp only [dictOverwrite, if_neg hp, dictGet, if_neg hp]
      exact ih h'

theorem dictGet_overwrite_ne {β : Type} {m : List (String × β)} {k k' : String} (v : β)
    (h : k' ≠ k) :
    dictGet (dictOverwrite k v m) k' = dictGet m k' := by
  induction m with
  | nil => rfl
  | cons p rest ih =>
    obtain ⟨p1, p2⟩ := p
    by_cases hp : p1 = k
    · subst hp
      have hne : ¬p1 = k' := fun hh => h hh.symm
      simp only [dictOverwrite, if_pos rfl, dictGet, if_neg hne]
      exact ih
    · simp only [dictOverwrite, if_neg hp, dictGet]
      by_cases hp' : p1 = k'
      · simp [hp']
      · simp only [if_neg hp']
        exact ih

theorem dictGet_append_self {β : Type} {m : List (String × β)} {k : String} (v : β)
    (h : k ∉ m.map Prod.fst) : dictGet (m ++ [(k, v)]) k = some v := by
  induction m with
  | nil => simp [dictGet]
  | cons p rest ih =>
    obtain ⟨p1, p2⟩ := p
    simp only [List.map_cons, List.mem_cons] at h
    push_neg at h
    have hne : ¬p1 = k := fun hh => h.1 hh.symm
    simp only [List.cons_append, dictGet, if_neg hne]
    exact ih h.2

theorem dictGet_append_ne {β : Type} {m : List (String × β)} {k k' : String} (v : β)
    (h : k' ≠ k) : dictGet (m ++ [(k, v)]) k' = dictGet m k' := by
  induction m with
  | nil =>
    have hne : ¬k = k' := fun hh => h hh.symm
    simp [dictGet, hne]
  | cons p rest ih =>
    obtain ⟨p1, p2⟩ := p
    simp only [List.cons_append, dictGet]
    by_cases hp : p1 = k'
    · simp [hp]
    · simp only [if_neg hp]
      exact ih

theorem dictGet_dictInsert_self {β : Type} (m : List (String × β)) (k : String) (v : β) :
    dictGet (dictInsert m k v) k = some v := by
  unfold dictInsert
  split_ifs with h
  · exact dictGet_overwrite_self v h
  · exact dictGet_append_self v h

theorem dictGet_dictInsert_ne {β : Type} (m : List (String × β)) {k k' : String} (v : β)
    (h : k' ≠ k) : dictGet (dictInsert m k v) k' = dictGet m k' := by
  unfold dictInsert
  split_ifs with hm
  · exact dictGet_overwrite_ne v h
  · exact dictGet_append_ne v h

/-! ### The resolution invariant -/

theorem inv_insert {possible : List String} {ptb : List (String × String)}
    {rem : List String} {k : String} (v : String)
    (hInv : Inv possible ptb rem) (hk : k ∈ rem) :
    Inv possible (dictInsert ptb k v) (rem.erase k) := by
  obtain ⟨h1, h2, h3, h4, h5⟩ := hInv
  have hfresh : k ∉ ptb.map Prod.fst := fun hmem => h3 k hmem hk
  have hkeys : (dictInsert ptb k v).map Prod.fst = ptb.map Prod.fst ++ [k] := by
    rw [keys_dictInsert, if_neg hfresh]
  refine ⟨?_, ?_, ?_, ?_, ?_⟩
  · rw [hkeys]
    simp [List.nodup_append, h1, hfresh]
  · exact h2.erase k
  · intro k' hk'
    rw [hkeys] at hk'
    rcases List.mem_append.mp hk' with h' | h'
    · exact fun hmem => h3 k' h' (List.erase_subset _ _ hmem)
    · have : k' = k := by simpa using h'
      subst this
      exact h2.not_mem_erase
  · intro k' hk'
    rw [hkeys] at hk'
    rcases List.mem_append.mp hk' with h' | h'
    · exact h4 k' h'
    · have hkk : k' = k := by simpa using h'
      rw [hkk]
      exact h5 k hk
  · intro k' hk'
    exact h5 k' (List.erase_subset _ _ hk')

/-! ### Phase specifications -/

theorem policy1_ok_spec {possible : List String} (after : List String) :
    ∀ (rem : List String) (ptb p : List (String × String)) (r : List String),
    Inv possible ptb rem → policy1 after rem ptb = .ok (p, r) →
    Inv possible p r ∧
    (∀ k v, dictGet ptb k = some v → dictGet p k = some v) ∧
    (∀ a ∈ after, dictGet p a = some p1Reason) := by
  induction after with
  | nil =>
    intro rem ptb p r hInv heq
    simp only [policy1, Except.ok.injEq, Prod.mk.injEq] at heq
    obtain ⟨rfl, rfl⟩ := heq
    exact ⟨hInv, fun k v h => h, fun a ha => absurd ha (List.not_mem_nil a)⟩
  | cons a rest ih =>
    intro rem ptb p r hInv heq
    simp only [policy1] at heq
    by_cases ha : a ∈ rem
    · rw [if_pos ha] at heq
      have hInv' := inv_insert p1Reason hInv ha
      obtain ⟨hI, hpres, hall⟩ := ih (rem.erase a) (dictInsert ptb a p1Reason) p r hInv' heq
      refine ⟨hI, ?_, ?_⟩
      · intro k v h
        have hkne : k ≠ a := by
          intro hk
          subst hk
          exact hInv.2.2.1 k (mem_keys_of_dictGet h) ha
        refine hpres k v ?_
        rw [dictGet_dictInsert_ne ptb p1Reason hkne]
        exact h
      · intro b hb
        rcases List.mem_cons.mp hb with rfl | hbr
        · exact hpres b p1Reason (dictGet_dictInsert_self ptb b p1Reason)
        · exact hall b hbr
    · rw [if_neg ha] at heq
      simp at heq

theorem policy2_spec {possible : List String} (env : Env) (files : List String) :
    ∀ (rem : List String) (ptb : List (String × String)),
    Inv possible ptb rem →
    Inv possible (policy2 env files rem ptb).1 (policy2 env files rem ptb).2 ∧
    (∀ k v, dictGet ptb k = some v → dictGet (policy2 env files rem ptb).1 k = some v) := by
  induction files with
  | nil =>
    intro rem ptb hInv
    exact ⟨hInv, fun k v h => h⟩
  | cons f rest ih =>
    intro rem ptb hInv
    cases hcp : env.containingPackage (env.abspath f) with
    | none =>
      simp only [policy2, hcp]
      exact ih rem ptb hInv
    | some pkg =>
      simp only [policy2, hcp]
      by_cases hc : pkg ∉ ptb.map Prod.fst ∧ pkg ∈ rem
      · rw [if_pos hc]
        have hInv' := inv_insert p2Reason hInv hc.2
        obtain ⟨hI, hpres⟩ := ih (rem.erase pkg) (dictInsert ptb pkg p2Reason) hInv'
        refine ⟨hI, fun k v h => ?_⟩
        have hkne : k ≠ pkg := by
          intro hk
          subst hk
          exact hc.1 (mem_keys_of_dictGet h)
        refine hpres k v ?_
        rw [dictGet_dictInsert_ne ptb p2Reason hkne]
        exact h
      · rw [if_neg hc]
        exact ih rem ptb hInv

theorem policy3Inner_spec {possible : List String} (env : Env) (a : String) (snap : List String) :
    ∀ (rem : List String) (ptb : List (String × String)),
    Inv possible ptb rem → (∀ x ∈ snap, x ∈ rem) → snap.Nodup →
    Inv possible (policy3Inner env a snap rem ptb).1 (policy3Inner env a snap rem ptb).2 ∧
    (∀ k v, dictGet ptb k = some v → dictGet (policy3Inner env a snap rem ptb).1 k = some v) := by
  induction snap with
  | nil =>
    intro rem ptb hInv _ _
    exact ⟨hInv, fun k v h => h⟩
  | cons p rest ih =>
    intro rem ptb hInv hsub hnd
    simp only [policy3Inner]
    by_cases hd : does_pkg_depend_on_package env p a
    · rw [if_pos hd]
      have hp : p ∈ rem := hsub p (List.mem_cons_self p rest)
      have hInv' := inv_insert (p3Reason a) hInv hp
      have hsub' : ∀ x ∈ rest, x ∈ rem.erase p := by
        intro x hx
        have hxne : x ≠ p := by
          intro hh
          subst hh
          exact (List.nodup_cons.mp hnd).1 hx
        exact (List.mem_erase_of_ne hxne).mpr (hsub x (List.mem_cons_of_mem p hx))
      obtain ⟨hI, hpres⟩ :=
        ih (rem.erase p) (dictInsert ptb p (p3Reason a)) hInv' hsub' (List.nodup_cons.mp hnd).2
      refine ⟨hI, fun k v h => ?_⟩
      have hkne : k ≠ p := by
        intro hk
        subst hk
        exact hInv.2.2.1 k (mem_keys_of_dictGet h) hp
      refine hpres k v ?_
      rw [dictGet_dictInsert_ne ptb (p3Reason a) hkne]
      exact h
    · rw [if_neg hd]
      exact ih rem ptb hInv (fun x hx => hsub x (List.mem_cons_of_mem p hx))
        (List.nodup_cons.mp hnd).2

theorem policy3_spec {possible : List String} (env : Env) (pubs : List String) :
    ∀ (rem : List String) (ptb : List (String × String)),
    Inv possible ptb rem →
    Inv possible (policy3 env pubs rem ptb).1 (policy3 env pubs rem ptb).2 ∧
    (∀ k v, dictGet ptb k = some v → dictGet (policy3 env pubs rem ptb).1 k = some v) := by
  induction pubs with
  | nil =>
    intro rem ptb hInv
    exact ⟨hInv, fun k v h => h⟩
  | cons a rest ih =>
    intro rem ptb hInv
    obtain ⟨hI, hpres⟩ :=
      policy3Inner_spec env a rem rem ptb hInv (fun x h => h) hInv.2.1
    rcases hinner : policy3Inner env a rem rem ptb with ⟨ptb', rem'⟩
    rw [hinner] at hI hpres
    obtain ⟨hI2, hpres2⟩ := ih rem' ptb' hI
    simp only [policy3, hinner]
    exact ⟨hI2, fun k v h => hpres2 k v (hpres k v h)⟩

theorem get_packages_to_build_ok {env : Env} {cache : Cache} {files possible : List String}
    {plat_func : List String → List String → List String}
    {ptb1 : List (String × String)} {rem1 : List String}
    (hp1 : policy1 (plat_func (files.map env.toRelative) possible) possible [] =
      .ok (ptb1, rem1)) :
    get_packages_to_build env cache files possible plat_func =
      .ok ((policy3 env (dedup (publicScan env files cache []).1)
              (policy2 env files rem1 ptb1).2 (policy2 env files rem1 ptb1).1).1,
           (publicScan env files cache []).2) := by
  unfold get_packages_to_build
  dsimp only
  rw [hp1]

theorem get_packages_to_build_error {env : Env} {cache : Cache} {files possible : List String}
    {plat_func : List String → List String → List String} {e : String}
    (hp1 : policy1 (plat_func (files.map env.toRelative) possible) possible [] = .error e) :
    get_packages_to_build env cache files possible plat_func = .error e := by
  unfold get_packages_to_build
  dsimp only
  rw [hp1]

/-- The only failure exit of `get_packages_to_build` is the Policy-1
contract check. -/
theorem get_packages_to_build_error_iff {env : Env} {cache : Cache}
    {files possible : List String}
    {plat_func : List String → List String → List String} {e : String} :
    get_packages_to_build env cache files possible plat_func = .error e ↔
    policy1 (plat_func (files.map env.toRelative) possible) possible [] = .error e := by
  constructor
  · intro h
    rcases hp1 : policy1 (plat_func (files.map env.toRelative) possible) possible [] with
      e' | ⟨ptb1, rem1⟩
    · rw [get_packages_to_build_error hp1] at h
      simp only [Except.error.injEq] at h
      subst h
      rfl
    · rw [get_packages_to_build_ok hp1] at h
      simp at h
  · intro h
    exact get_packages_to_build_error h

example :
    get_packages_to_build envA [] [] ["PkgA"] (fun _ _ => ["PkgX"]) =
      .error ("Platform Function FilterPackagesToTest returned package not allowed PkgX") := rfl

/-- Claim C1: on every successful resolution over a de-duplicated candidate
list, each candidate appears as a key of the returned mapping at most once,
every key belongs to the candidate list, and the recorded reason is that of
the first policy (Policy 1, then 2, then 3) that selected the package: every
package returned by the Policy-1 filter keeps Policy 1's reason, and every
reason present after Policy 2 survives Policy 3 unchanged. -/
theorem claim_C1 (env : Env) (cache : Cache) (files possible : List String)
    (plat_func : List String → List String → List String)
    (m : List (String × String)) (cache' : Cache)
    (hnd : possible.Nodup)
    (hok : get_packages_to_build env cache files possible plat_func = .ok (m, cache')) :
    (m.map Prod.fst).Nodup ∧
    (∀ k ∈ m.map Prod.fst, k ∈ possible) ∧
    (∀ a ∈ plat_func (files.map env.toRelative) possible, dictGet m a = some p1Reason) ∧
    (∀ q1 r1,
      policy1 (plat_func (files.map env.toRelative) possible) possible [] = .ok (q1, r1) →
      ∀ k v, dictGet (policy2 env files r1 q1).1 k = some v → dictGet m k = some v) := by
  have hInv0 : Inv possible [] possible :=
    ⟨by simp, hnd, by simp, by simp, fun k h => h⟩
  obtain ⟨ptb1, rem1, hp1⟩ :
      ∃ ptb1 rem1,
        policy1 (plat_func (files.map env.toRelative) possible) possible [] =
          .ok (ptb1, rem1) := by
    rcases hp : policy1 (plat_func (files.map env.toRelative) possible) possible [] with
      e | ⟨a, b⟩
    · rw [get_packages_to_build_error hp] at hok
      simp at hok
    · exact ⟨a, b, rfl⟩
  rw [get_packages_to_build_ok hp1] at hok
  simp only [Except.ok.injEq, Prod.mk.injEq] at hok
  obtain ⟨hm, _⟩ := hok
  subst hm
  obtain ⟨hInv1, _, hall1⟩ :=
    policy1_ok_spec (plat_func (files.map env.toRelative) possible) possible [] ptb1 rem1
      hInv0 hp1
  obtain ⟨hInv2, hpres2⟩ := policy2_spec env files rem1 ptb1 hInv1
  obtain ⟨hInv3, hpres3⟩ :=
    policy3_spec env (dedup (publicScan env files cache []).1)
      (policy2 env files rem1 ptb1).2 (policy2 env files rem1 ptb1).1 hInv2
  refine ⟨hInv3.1, hInv3.2.2.2.1, ?_, ?_⟩
  · intro a ha
    exact hpres3 a p1Reason (hpres2 a p1Reason (hall1 a ha))
  · intro q1 r1 hp1' k v hv
    rw [hp1] at hp1'
    simp only [Except.ok.injEq, Prod.mk.injEq] at hp1'
    obtain ⟨h1, h2⟩ := hp1'
    subst h1
    subst h2
    exact hpres3 k v hv

/-- Witness for C1 at a concrete input: one candidate package selected by an
identity Policy-1 filter. -/
theorem claim_C1_witness :
    (([("PkgA", p1Reason)] : List (String × String)).map Prod.fst).Nodup ∧
    (∀ k ∈ ([("PkgA", p1Reason)] : List (String × String)).map Prod.fst, k ∈ ["PkgA"]) ∧
    (∀ a ∈ ["PkgA"], dictGet [("PkgA", p1Reason)] a = some p1Reason) ∧
    (∀ q1 r1, policy1 ["PkgA"] ["PkgA"] [] = .ok (q1, r1) →
      ∀ k v, dictGet (policy2 envA [] r1 q1).1 k = some v →
        dictGet [("PkgA", p1Reason)] k = some v) :=
  claim_C1 envA [] [] ["PkgA"] (fun _ rem => rem) [("PkgA", p1Reason)] []
    (by simp) rfl

theorem policy1_error_of_not_mem (a : String) :
    ∀ (after rem : List String) (ptb : List (String × String)),
    a ∈ after → a ∉ rem → ∃ e, policy1 after rem ptb = .error e := by
  intro after
  induction after with
  | nil =>
    intro rem ptb h
    simp at h
  | cons b rest ih =>
    intro rem ptb hmem hnot
    by_cases hb : b ∈ rem
    · have hab : a ≠ b := by
        intro hh
        subst hh
        exact hnot hb
      have har : a ∈ rest := by
        rcases List.mem_cons.mp hmem with h | h
        · exact absurd h hab
        · exact h
      obtain ⟨e, he⟩ :=
        ih (rem.erase b) (dictInsert ptb b p1Reason) har
          (fun hc => hnot (List.mem_of_mem_erase hc))
      refine ⟨e, ?_⟩
      simp only [policy1, if_pos hb]
      exact he
    · refine ⟨"Platform Function FilterPackagesToTest returned package not allowed " ++ b, ?_⟩
      simp only [policy1, if_neg hb]

/-- Claim C2: if the Policy-1 filter returns a package outside the candidate
set it was given, the whole resolution fails with an error and no mapping is
returned. -/
theorem claim_C2 (env : Env) (cache : Cache) (files possible : List String)
    (plat_func : List String → List String → List String) (a : String)
    (hmem : a ∈ plat_func (files.map env.toRelative) possible)
    (hnot : a ∉ possible) :
    ∃ e, get_packages_to_build env cache files possible plat_func = .error e := by
  obtain ⟨e, he⟩ :=
    policy1_error_of_not_mem a (plat_func (files.map env.toRelative) possible) possible []
      hmem hnot
  exact ⟨e, get_packages_to_build_error he⟩

/-- Witness for C2: the filter returns `PkgX`, never a candidate. -/
theorem claim_C2_witness :
    ∃ e, get_packages_to_build envA [] [] ["PkgA"] (fun _ _ => ["PkgX"]) = .error e :=
  claim_C2 envA [] [] ["PkgA"] (fun _ _ => ["PkgX"]) "PkgX" (by simp) (by simp)

theorem policy1_error_of_dup (a : String) :
    ∀ (after rem : List String) (ptb : List (String × String)),
    rem.Nodup → 2 ≤ after.count a → ∃ e, policy1 after rem ptb = .error e := by
  intro after
  induction after with
  | nil =>
    intro rem ptb _ hc
    simp at hc
  | cons b rest ih =>
    intro rem ptb hnd hc
    by_cases hb : b ∈ rem
    · by_cases hab : b = a
      · subst hab
        have har : b ∈ rest := by
          rw [List.count_cons_self] at hc
          have : 1 ≤ rest.count b := by omega
          exact List.count_pos_iff.mp this
        obtain ⟨e, he⟩ :=
          policy1_error_of_not_mem b rest (rem.erase b) (dictInsert ptb b p1Reason) har
            hnd.not_mem_erase
        refine ⟨e, ?_⟩
        simp only [policy1, if_pos hb]
        exact he
      · have hc' : 2 ≤ rest.count a := by
          have hne : (b == a) = false := by
            rw [beq_eq_false_iff_ne]
            exact hab
          rw [List.count_cons, hne] at hc
          simp at hc
          omega
        obtain ⟨e, he⟩ := ih (rem.erase b) (dictInsert ptb b p1Reason) (hnd.erase b) hc'
        refine ⟨e, ?_⟩
        simp only [policy1, if_pos hb]
        exact he
    · refine ⟨"Platform Function FilterPackagesToTest returned package not allowed " ++ b, ?_⟩
      simp only [policy1, if_neg hb]

/-- Claim C10: if the Policy-1 filter returns the same candidate package more
than once, resolution raises the contract-violation error: the membership
check runs against the remaining set, from which the first occurrence was
already removed. -/
theorem claim_C10 (env : Env) (cache : Cache) (files possible : List String)
    (plat_func : List String → List String → List String) (a : String)
    (hnd : possible.Nodup) (hmem : a ∈ possible)
    (hcount : 2 ≤ (plat_func (files.map env.toRelative) possible).count a) :
    ∃ e, get_packages_to_build env cache files possible plat_func = .error e := by
  obtain ⟨e, he⟩ :=
    policy1_error_of_dup a (plat_func (files.map env.toRelative) possible) possible []
      hnd hcount
  exact ⟨e, get_packages_to_build_error he⟩

/-- Witness for C10: the filter returns the lone candidate twice. -/
theorem claim_C10_witness :
    ∃ e, get_packages_to_build envA [] [] ["PkgA"] (fun _ _ => ["PkgA", "PkgA"]) =
      .error e :=
  claim_C10 envA [] [] ["PkgA"] (fun _ _ => ["PkgA", "PkgA"]) "PkgA"
    (by simp) (by simp) (by decide)

/-- Claim C5 counterexample: with an empty changed-file list but an external
filter that returns the whole candidate list it was handed (the shipped
default `FilterPackagesToTest` does exactly this), the output mapping is not
empty, so "for every external filter, empty files give an empty mapping" is
false. -/
theorem claim_C5_counterexample :
    get_packages_to_build envA [] [] ["PkgA"] (fun _ rem => rem) =
      .ok ([("PkgA", p1Reason)], []) ∧
    ([("PkgA", p1Reason)] : List (String × String)) ≠ [] :=
  ⟨rfl, by simp⟩

/-- Claim C5 (amended): if the changed-file list is empty and the external
filter returns no packages for it, the returned output mapping is empty. -/
theorem claim_C5_amended (env : Env) (cache : Cache) (possible : List String)
    (plat_func : List String → List String → List String)
    (h : plat_func [] possible = []) :
    get_packages_to_build env cache [] possible plat_func = .ok ([], cache) := by
  unfold get_packages_to_build
  dsimp only
  simp only [List.map_nil]
  rw [h]
  rfl

/-- Witness for the amended C5: empty files, a filter returning nothing. -/
theorem claim_C5_amended_witness :
    get_packages_to_build envA [] [] ["PkgA"] (fun _ _ => []) = .ok ([], []) :=
  claim_C5_amended envA [] ["PkgA"] (fun _ _ => []) rfl

theorem mem_keys_dictInsert {β : Type} (m : List (String × β)) (k : String) (v : β)
    (p : String) :
    p ∈ (dictInsert m k v).map Prod.fst ↔ p ∈ m.map Prod.fst ∨ p = k := by
  rw [keys_dictInsert]
  split_ifs with h
  · constructor
    · exact .inl
    · rintro (h' | rfl)
      · exact h'
      · exact h
  · simp

theorem mem_of_mem_overwrite {β : Type} {k : String} {v : β} :
    ∀ {m : List (String × β)} {pr : String × β},
    pr ∈ dictOverwrite k v m → pr ∈ m ∨ pr.2 = v := by
  intro m
  induction m with
  | nil =>
    intro pr h
    simp [dictOverwrite] at h
  | cons q rest ih =>
    intro pr h
    obtain ⟨q1, q2⟩ := q
    by_cases hq : q1 = k
    · simp only [dictOverwrite] at h
      rw [if_pos hq] at h
      rcases List.mem_cons.mp h with rfl | h'
      · exact .inr rfl
      · rcases ih h' with h'' | h''
        · exact .inl (List.mem_cons_of_mem _ h'')
        · exact .inr h''
    · simp only [dictOverwrite] at h
      rw [if_neg hq] at h
      rcases List.mem_cons.mp h with rfl | h'
      · exact .inl (List.mem_cons_self _ _)
      · rcases ih h' with h'' | h''
        · exact .inl (List.mem_cons_of_mem _ h'')
        · exact .inr h''

theorem mem_of_mem_dictInsert {β : Type} {m : List (String × β)} {k : String} {v : β}
    {pr : String × β} (h : pr ∈ dictInsert m k v) : pr ∈ m ∨ pr.2 = v := by
  unfold dictInsert at h
  split_ifs at h with hm
  · exact mem_of_mem_overwrite h
  · rcases List.mem_append.mp h with h' | h'
    · exact .inl h'
    · have hpr : pr = (k, v) := by simpa using h'
      exact .inr (by rw [hpr])

theorem fallback_fold_spec (v : String) (l : List String) :
    ∀ d : List (String × String),
    (d.map Prod.fst).Nodup →
    (((l.foldl (fun d a => dictInsert d a v) d).map Prod.fst).Nodup ∧
     (∀ p, p ∈ (l.foldl (fun d a => dictInsert d a v) d).map Prod.fst ↔
        p ∈ d.map Prod.fst ∨ p ∈ l) ∧
     (∀ pr ∈ l.foldl (fun d a => dictInsert d a v) d, pr ∈ d ∨ pr.2 = v)) := by
  induction l with
  | nil =>
    intro d hnd
    refine ⟨hnd, fun p => ?_, fun pr h => .inl h⟩
    simp
  | cons a rest ih =>
    intro d hnd
    simp only [List.foldl_cons]
    obtain ⟨h1, h2, h3⟩ := ih (dictInsert d a v) (nodup_keys_dictInsert v hnd)
    refine ⟨h1, fun p => ?_, fun pr hpr => ?_⟩
    · rw [h2 p, mem_keys_dictInsert]
      constructor
      · rintro ((h' | rfl) | h')
        · exact .inl h'
        · exact .inr (List.mem_cons_self _ _)
        · exact .inr (List.mem_cons_of_mem _ h')
      · rintro (h' | h')
        · exact .inl (.inl h')
        · rcases List.mem_cons.mp h' with rfl | h''
          · exact .inl (.inr rfl)
          · exact .inr h''
    · rcases h3 pr hpr with h' | h'
      · rcases mem_of_mem_dictInsert h' with h'' | h''
        · exact .inl h''
        · exact .inr h''
      · exact .inr h'

theorem goFallback_spec (requested : List String) (rc : Int) :
    ((goFallback requested rc).map Prod.fst).Nodup ∧
    (∀ p, p ∈ (goFallback requested rc).map Prod.fst ↔ p ∈ requested) ∧
    (∀ pr ∈ goFallback requested rc, pr.2 = p0Reason rc) := by
  obtain ⟨h1, h2, h3⟩ := fallback_fold_spec (p0Reason rc) requested [] (by simp)
  unfold goFallback
  refine ⟨h1, fun p => ?_, fun pr hpr => ?_⟩
  · rw [h2 p]
    simp
  · rcases h3 pr hpr with h | h
    · simp at h
    · exact h

/-- Claim C6: when change-set retrieval fails (non-zero return code), the
output mapping is exactly the fallback: every candidate package appears as a
key (exactly once), annotated with the reason string encoding the exit code,
and no diff-based policy runs (the result is independent of the files, the
environment and the filter). -/
theorem claim_C6 (env : Env) (cache : Cache) (rc : Int) (files requested : List String)
    (plat_func : List String → List String → List String)
    (h : rc ≠ 0) :
    goPackagesDict env cache rc files requested plat_func = .ok (goFallback requested rc) ∧
    ((goFallback requested rc).map Prod.fst).Nodup ∧
    (∀ p, p ∈ (goFallback requested rc).map Prod.fst ↔ p ∈ requested) ∧
    (∀ pr ∈ goFallback requested rc, pr.2 = p0Reason rc) := by
  obtain ⟨h1, h2, h3⟩ := goFallback_spec requested rc
  refine ⟨?_, h1, h2, h3⟩
  unfold goPackagesDict
  rw [if_neg h]

/-- Witness for C6 at return code 1 with one candidate. -/
theorem claim_C6_witness :
    goPackagesDict envA [] 1 [] ["PkgA"] (fun _ rem => rem) =
      .ok (goFallback ["PkgA"] 1) ∧
    ((goFallback ["PkgA"] 1).map Prod.fst).Nodup ∧
    (∀ p, p ∈ (goFallback ["PkgA"] 1).map Prod.fst ↔ p ∈ ["PkgA"]) ∧
    (∀ pr ∈ goFallback ["PkgA"] 1, pr.2 = p0Reason 1) :=
  claim_C6 envA [] 1 [] ["PkgA"] (fun _ rem => rem) (by decide)

theorem policy2_skip (env : Env) {f : String}
    (h : env.containingPackage (env.abspath f) = none) :
    ∀ (l₁ l₂ rem : List String) (ptb : List (String × String)),
    policy2 env (l₁ ++ f :: l₂) rem ptb = policy2 env (l₁ ++ l₂) rem ptb := by
  intro l₁
  induction l₁ with
  | nil =>
    intro l₂ rem ptb
    simp only [List.nil_append, policy2, h]
  | cons g rest ih =>
    intro l₂ rem ptb
    simp only [List.cons_append]
    cases hg : env.containingPackage (env.abspath g) with
    | none =>
      simp only [policy2, hg]
      exact ih l₂ rem ptb
    | some pkg =>
      simp only [policy2, hg]
      split_ifs with hc
      · exact ih l₂ _ _
      · exact ih l₂ rem ptb

theorem publicScan_skip (env : Env) {f : String}
    (h : env.containingPackage f = none) :
    ∀ (l₁ l₂ : List String) (cache : Cache) (acc : List String),
    publicScan env (l₁ ++ f :: l₂) cache acc = publicScan env (l₁ ++ l₂) cache acc := by
  intro l₁
  induction l₁ with
  | nil =>
    intro l₂ cache acc
    simp only [List.nil_append, publicScan, h]
  | cons g rest ih =>
    intro l₂ cache acc
    simp only [List.cons_append]
    cases hg : env.containingPackage g with
    | none =>
      simp only [publicScan, hg]
      exact ih l₂ cache acc
    | some pkg =>
      rcases hip : is_public_file env cache g with ⟨b, cache'⟩
      simp only [publicScan, hg, hip]
      cases b
      · exact ih l₂ cache' acc
      · exact ih l₂ cache' (acc ++ [pkg])

/-- Claim C7: a changed file whose containing-package resolution fails is
skipped without failing the resolution: as long as the Policy-1 filter's
output is unchanged, the whole resolution result with that file present
equals the result with it dropped (all other files are still processed, and
no error escapes on its account). -/
theorem claim_C7 (env : Env) (cache : Cache) (f : String) (l₁ l₂ possible : List String)
    (plat_func : List String → List String → List String)
    (h2 : env.containingPackage (env.abspath f) = none)
    (h3 : env.containingPackage f = none)
    (hpf : plat_func ((l₁ ++ f :: l₂).map env.toRelative) possible =
           plat_func ((l₁ ++ l₂).map env.toRelative) possible) :
    get_packages_to_build env cache (l₁ ++ f :: l₂) possible plat_func =
      get_packages_to_build env cache (l₁ ++ l₂) possible plat_func := by
  unfold get_packages_to_build
  dsimp only
  rw [hpf]
  simp only [policy2_skip env h2, publicScan_skip env h3]

/-- Witness for C7: a single unresolvable file behaves like no file. -/
theorem claim_C7_witness :
    get_packages_to_build envA [] ["f"] ["PkgA"] (fun _ rem => rem) =
      get_packages_to_build envA [] [] ["PkgA"] (fun _ rem => rem) :=
  claim_C7 envA [] "f" [] [] ["PkgA"] (fun _ rem => rem) rfl rfl rfl

/-- Claim C3: when the containing package resolves and its manifest is
available (through the cache discipline), a file is classified public
exactly when its forward-slash-normalized path contains
`<package>/<declaredIncludeDir>/` for some declared include directory, or
the file itself has the manifest extension (case-insensitively). -/
theorem claim_C3 (env : Env) (cache : Cache) (filepath pkg : String) (dec : DecData)
    (cache₂ : Cache)
    (hpkg : env.containingPackage filepath = some pkg)
    (hdec : getDecCached env cache pkg = (some dec, cache₂)) :
    ((is_public_file env cache filepath).1 = true ↔
      ((∃ inc ∈ dec.includePaths,
          strContains (normalizeSep filepath) (pkg ++ "/" ++ inc ++ "/") = true) ∨
       strEndsWith (strToLower filepath) ".dec" = true)) := by
  simp only [is_public_file, hpkg, hdec]
  split_ifs with hA hB
  · simp only [true_iff]
    left
    rw [List.any_eq_true] at hA
    obtain ⟨inc, hinc, hc⟩ := hA
    exact ⟨inc, hinc, hc⟩
  · simp only [true_iff]
    right
    exact hB
  · constructor
    · intro h
      exact absurd h (by simp)
    · rintro (⟨inc, hinc, hc⟩ | h)
      · exact absurd (List.any_eq_true.mpr ⟨inc, hinc, hc⟩) hA
      · exact absurd h hB

/-- Witness for C3: `/ws/PkgA/Include/Foo.h` with `Include` declared. -/
theorem claim_C3_witness :
    ((is_public_file envB [("PkgA", some ⟨["Include"]⟩)] "/ws/PkgA/Include/Foo.h").1 = true ↔
      ((∃ inc ∈ (⟨["Include"]⟩ : DecData).includePaths,
          strContains (normalizeSep "/ws/PkgA/Include/Foo.h")
            ("PkgA" ++ "/" ++ inc ++ "/") = true) ∨
       strEndsWith (strToLower "/ws/PkgA/Include/Foo.h") ".dec" = true)) :=
  claim_C3 envB [("PkgA", some ⟨["Include"]⟩)] "/ws/PkgA/Include/Foo.h" "PkgA"
    ⟨["Include"]⟩ [("PkgA", some ⟨["Include"]⟩)] rfl rfl

theorem anyDepStarts_iff (s : String) (l : List String) :
    anyDepStarts s l = true ↔ ∃ p ∈ l, strStartsWith p s = true := by
  induction l with
  | nil => simp [anyDepStarts]
  | cons p rest ih =>
    simp only [anyDepStarts]
    split_ifs with hp
    · constructor
      · intro _
        exact ⟨p, List.mem_cons_self _ _, hp⟩
      · intro _
        rfl
    · rw [ih]
      constructor
      · rintro ⟨q, hq, hs⟩
        exact ⟨q, List.mem_cons_of_mem _ hq, hs⟩
      · rintro ⟨q, hq, hs⟩
        rcases List.mem_cons.mp hq with rfl | hq'
        · exact absurd hs hp
        · exact ⟨q, hq', hs⟩

theorem scanInfFiles_iff (env : Env) (s : String) (l : List String) :
    scanInfFiles env s l = true ↔ ∃ f ∈ l, anyDepStarts s (env.parseInf f) = true := by
  induction l with
  | nil => simp [scanInfFiles]
  | cons f rest ih =>
    simp only [scanInfFiles]
    split_ifs with hf
    · constructor
      · intro _
        exact ⟨f, List.mem_cons_self _ _, hf⟩
      · intro _
        rfl
    · rw [ih]
      constructor
      · rintro ⟨g, hg, hs⟩
        exact ⟨g, List.mem_cons_of_mem _ hg, hs⟩
      · rintro ⟨g, hg, hs⟩
        rcases List.mem_cons.mp hg with rfl | hg'
        · exact absurd hs hf
        · exact ⟨g, hg', hs⟩

/-- Claim C4: `_does_pkg_depend_on_package` returns true exactly when some
module manifest enumerated beneath the evaluated package's directory
declares a dependency whose identifier starts with the support package (a
prefix match, not exact equality); first match wins, and it returns false
when no module declares such a dependency. -/
theorem claim_C4 (env : Env) (package_to_eval support_package : String) :
    does_pkg_depend_on_package env package_to_eval support_package = true ↔
      ∃ f ∈ env.walkInfs (env.toAbsolute package_to_eval),
        ∃ p ∈ env.parseInf f, strStartsWith p support_package = true := by
  unfold does_pkg_depend_on_package
  rw [scanInfFiles_iff]
  constructor
  · rintro ⟨f, hf, ha⟩
    obtain ⟨p, hp, hs⟩ := (anyDepStarts_iff _ _).mp ha
    exact ⟨f, hf, p, hp, hs⟩
  · rintro ⟨f, hf, p, hp, hs⟩
    exact ⟨f, hf, (anyDepStarts_iff _ _).mpr ⟨p, hp, hs⟩⟩

theorem decFindAux_nomatch (pkgdir : String) :
    ∀ (l : List String) (acc : Option String),
    (∀ e ∈ l, strEndsWith (strToLower e) ".dec" = false) →
    decFindAux pkgdir acc l = acc := by
  intro l
  induction l with
  | nil =>
    intro acc _
    rfl
  | cons x rest ih =>
    intro acc hall
    have hx : strEndsWith (strToLower x) ".dec" = false := hall x (List.mem_cons_self _ _)
    simp only [decFindAux, hx]
    exact ih acc (fun e he => hall e (List.mem_cons_of_mem _ he))

theorem decFindAux_single (pkgdir : String) :
    ∀ (l : List String) (e : String) (acc : Option String),
    l.filter (fun x => strEndsWith (strToLower x) ".dec") = [e] →
    decFindAux pkgdir acc l = some (pathJoin pkgdir e) := by
  intro l
  induction l with
  | nil =>
    intro e acc h
    simp at h
  | cons x rest ih =>
    intro e acc h
    cases hx : strEndsWith (strToLower x) ".dec" with
    | true =>
      rw [List.filter_cons_of_pos (p := fun y => strEndsWith (strToLower y) ".dec") hx] at h
      simp only [List.cons.injEq] at h
      obtain ⟨rfl, hrest⟩ := h
      have hnm : ∀ y ∈ rest, strEndsWith (strToLower y) ".dec" = false := by
        intro y hy
        have := List.filter_eq_nil_iff.mp hrest y hy
        simpa using this
      simp only [decFindAux, hx]
      exact decFindAux_nomatch pkgdir rest _ hnm
    | false =>
      rw [List.filter_cons_of_neg (p := fun y => strEndsWith (strToLower y) ".dec")
        (by simp [hx])] at h
      simp only [decFindAux, hx]
      exact ih e acc h

/-- Claim C8: manifest lookup scans the entries directly inside the package
directory for the manifest extension (case-insensitively); a failing
directory listing, the absence of any matching entry, an untranslatable
workspace-relative path or a non-file result all degrade gracefully to "no
manifest" (`none`) instead of failing, and when the directory holds exactly
one matching entry the lookup locates precisely that entry and parses it. -/
theorem claim_C8 (env : Env) (pkgdir : String) :
    (env.listdir pkgdir = none → parse_dec_for_package env pkgdir = none) ∧
    (∀ es, env.listdir pkgdir = some es →
      (∀ e ∈ es, strEndsWith (strToLower e) ".dec" = false) →
      parse_dec_for_package env pkgdir = none) ∧
    (∀ es e, env.listdir pkgdir = some es →
      es.filter (fun x => strEndsWith (strToLower x) ".dec") = [e] →
      decFindAux pkgdir none es = some (pathJoin pkgdir e)) ∧
    (∀ es q, env.listdir pkgdir = some es → decFindAux pkgdir none es = some q →
      (env.toRelative q = "" ∨ env.isfile q = false) →
      parse_dec_for_package env pkgdir = none) ∧
    (∀ es q, env.listdir pkgdir = some es → decFindAux pkgdir none es = some q →
      env.toRelative q ≠ "" → env.isfile q = true →
      parse_dec_for_package env pkgdir = some (env.parseDec (env.toRelative q))) := by
  refine ⟨?_, ?_, ?_, ?_, ?_⟩
  · intro h
    simp only [parse_dec_for_package, h]
  · intro es hes hall
    have hd : decFindAux pkgdir none es = none := decFindAux_nomatch pkgdir es none hall
    simp only [parse_dec_for_package, hes, hd]
  · intro es e _ hfil
    exact decFindAux_single pkgdir es e none hfil
  · intro es q hes hd hfail
    simp only [parse_dec_for_package, hes, hd]
    rw [if_pos hfail]
  · intro es q hes hd hne hfile
    simp only [parse_dec_for_package, hes, hd]
    rw [if_neg (not_or.mpr ⟨hne, by simp [hfile]⟩)]

/-- Witness for C8: the single `.dec` entry is located and parsed. -/
theorem claim_C8_witness :
    parse_dec_for_package envC "P" =
      some (envC.parseDec (envC.toRelative (pathJoin "P" "Pkg.dec"))) :=
  (claim_C8 envC "P").2.2.2.2 ["Readme.md", "Pkg.dec"] (pathJoin "P" "Pkg.dec")
    rfl (by decide) (by decide) rfl

theorem consistent_nil (env : Env) : Consistent env [] := by
  intro pkg d h
  simp [dictGet] at h

theorem getDecCached_fst {env : Env} {c : Cache} (h : Consistent env c) (pkg : String) :
    (getDecCached env c pkg).1 = parse_dec_for_package env (env.toAbsolute pkg) := by
  unfold getDecCached
  cases hg : dictGet c pkg with
  | none => rfl
  | some d => exact h pkg d hg

theorem getDecCached_snd {env : Env} {c : Cache} (h : Consistent env c) (pkg : String) :
    Consistent env (getDecCached env c pkg).2 := by
  unfold getDecCached
  cases hg : dictGet c pkg with
  | none =>
    intro q d hq
    by_cases hqp : q = pkg
    · subst hqp
      rw [dictGet_dictInsert_self] at hq
      simp only [Option.some.injEq] at hq
      exact hq.symm
    · rw [dictGet_dictInsert_ne _ _ hqp] at hq
      exact h q d hq
  | some d => exact h

theorem is_public_file_fst {env : Env} {c : Cache} (h : Consistent env c)
    (filepath : String) :
    (is_public_file env c filepath).1 = canonPub env filepath := by
  cases hcp : env.containingPackage filepath with
  | none => simp only [is_public_file, canonPub, hcp]
  | some pkg =>
    rcases hgd : getDecCached env c pkg with ⟨o, c'⟩
    have ho : o = parse_dec_for_package env (env.toAbsolute pkg) := by
      have hf := getDecCached_fst h pkg
      rw [hgd] at hf
      exact hf
    simp only [is_public_file, canonPub, hcp, hgd, ← ho]
    cases o with
    | none => rfl
    | some dec =>
      dsimp only
      split_ifs with hA hB
      · simp [hA]
      · simp [hA, hB]
      · simp [hA, hB]

theorem is_public_file_snd {env : Env} {c : Cache} (h : Consistent env c)
    (filepath : String) :
    Consistent env (is_public_file env c filepath).2 := by
  cases hcp : env.containingPackage filepath with
  | none =>
    simp only [is_public_file, hcp]
    exact h
  | some pkg =>
    rcases hgd : getDecCached env c pkg with ⟨o, c'⟩
    have hc' : Consistent env c' := by
      have hs := getDecCached_snd h pkg
      rw [hgd] at hs
      exact hs
    simp only [is_public_file, hcp, hgd]
    cases o with
    | none => exact hc'
    | some dec =>
      dsimp only
      split_ifs with hA hB
      · exact hc'
      · exact hc'
      · exact hc'

theorem publicScan_spec {env : Env} (files : List String) :
    ∀ (c : Cache) (acc : List String), Consistent env c →
    (publicScan env files c acc).1 = canonScan env files acc ∧
    Consistent env (publicScan env files c acc).2 := by
  induction files with
  | nil =>
    intro c acc h
    exact ⟨rfl, h⟩
  | cons f rest ih =>
    intro c acc h
    cases hcp : env.containingPackage f with
    | none =>
      simp only [publicScan, canonScan, hcp]
      exact ih c acc h
    | some pkg =>
      rcases hip : is_public_file env c f with ⟨b, c'⟩
      have hb : b = canonPub env f := by
        have hf := is_public_file_fst h f
        rw [hip] at hf
        exact hf
      have hc' : Consistent env c' := by
        have hs := is_public_file_snd h f
        rw [hip] at hs
        exact hs
      simp only [publicScan, canonScan, hcp, hip]
      rw [← hb]
      cases b
      · exact ih c' acc hc'
      · exact ih c' (acc ++ [pkg]) hc'

/-- Claim C9: resolution is reproducible.  A run from the fresh (empty)
manifest cache yields a mapping that a second run with identical inputs
reproduces exactly — even when the second run starts from the cache the
first run left behind on the resolver instance — Policy-3 reason strings
included. -/
theorem claim_C9 (env : Env) (files possible : List String)
    (plat_func : List String → List String → List String)
    (m : List (String × String)) (c₁ : Cache)
    (h : get_packages_to_build env [] files possible plat_func = .ok (m, c₁)) :
    ∃ c₂, get_packages_to_build env c₁ files possible plat_func = .ok (m, c₂) := by
  obtain ⟨ptb1, rem1, hp1⟩ :
      ∃ ptb1 rem1,
        policy1 (plat_func (files.map env.toRelative) possible) possible [] =
          .ok (ptb1, rem1) := by
    rcases hp : policy1 (plat_func (files.map env.toRelative) possible) possible [] with
      e | ⟨a, b⟩
    · rw [get_packages_to_build_error hp] at h
      simp at h
    · exact ⟨a, b, rfl⟩
  rw [get_packages_to_build_ok hp1] at h
  simp only [Except.ok.injEq, Prod.mk.injEq] at h
  obtain ⟨hm, hc⟩ := h
  obtain ⟨hs1, hs2⟩ := publicScan_spec files [] [] (consistent_nil env)
  have hc₁ : Consistent env c₁ := hc ▸ hs2
  obtain ⟨ht1, _⟩ := publicScan_spec files c₁ [] hc₁
  refine ⟨(publicScan env files c₁ []).2, ?_⟩
  rw [get_packages_to_build_ok hp1, ht1, ← hs1, hm]

/-- Witness for C9 at a concrete input. -/
theorem claim_C9_witness :
    ∃ c₂, get_packages_to_build envA [] [] ["PkgA"] (fun _ rem => rem) =
      .ok ([("PkgA", p1Reason)], c₂) :=
  claim_C9 envA [] ["PkgA"] (fun _ rem => rem) [("PkgA", p1Reason)] [] rfl

end Edk2PrEval
